import Mathlib

/-!
# toy-ws-server: the subscription registry, the command loop and the publisher

A shallow embedding of `internal/stream/server.go` and `internal/stream/price.go`.

Go maps are kept as association lists: the list order stands for the order in
which `range` visits the entries, so a statement quantified over all lists is a
statement about every visiting order.  A Go `error` is `Option String`
(`none` is `nil`).  A Go slice is `Option (List String)` where `none` is the
`nil` slice: `range` sees no difference between `nil` and an empty slice, the
test `streams == nil` does.
-/

namespace Stream

set_option linter.dupNamespace false

/-! ## Go maps with string keys -/

/-- The read `v, ok := m[key]`: `none` when `ok` is false. -/
def mapGet {V : Type} : List (String × V) → String → Option V
  | [], _ => none
  | (k, v) :: m, key => if k = key then some v else mapGet m key

/-- The assignment `m[key] = val`: an existing entry is overwritten where it stands. -/
def mapSet {V : Type} : List (String × V) → String → V → List (String × V)
  | [], key, val => [(key, val)]
  | (k, v) :: m, key, val => if k = key then (k, val) :: m else (k, v) :: mapSet m key val

/-- The builtin `delete(m, key)`. -/
def mapDelete {V : Type} (m : List (String × V)) (key : String) : List (String × V) :=
  m.filter (fun e => decide (e.1 ≠ key))

/-- The keys of a map, in visiting order. -/
def mapKeys {V : Type} (m : List (String × V)) : List String := m.map Prod.fst

/-- A Go map holds every key once. -/
def UniqueKeys {V : Type} (m : List (String × V)) : Prop := (mapKeys m).Nodup

/-! ## The data model of server.go -/

/-- A `*websocket.Conn`, kept as the identity of the connection. -/
abbrev Conn := Nat

/-- The type `Clients`: `map[string]*websocket.Conn`, client id to connection. -/
abbrev Clients := List (String × Conn)

/-- The type `Subscriptions`: `map[string]Clients`, stream name to its subscribers. -/
abbrev Subscriptions := List (String × Clients)

/-- A Go `error` value; `none` is `nil`. -/
abbrev GoError := Option String

/-- A Go `[]string`; `none` is the `nil` slice. -/
abbrev StrSlice := Option (List String)

/-- The elements a `range` over the slice visits. -/
def StrSlice.elems (s : StrSlice) : List String := s.getD []

/-- The struct `SubscriptionManager`. -/
structure SubscriptionManager where
  subscriptions : Subscriptions
deriving DecidableEq, Repr

/-- The registry part of `NewServer`: one empty `Clients` map per configured stream. -/
def NewServer (streams : List String) : SubscriptionManager :=
  ⟨streams.foldl (fun subs stream => mapSet subs stream []) []⟩

/-- The loop of `AddClient` over the streams still to visit. -/
def addLoop (clientID : String) (c : Conn) : List String → Subscriptions → GoError × Subscriptions
  | [], subs => (none, subs)
  | stream :: rest, subs =>
    match mapGet subs stream with
    | none => (some ("stream " ++ stream ++ " does not exist"), subs)
    | some s => addLoop clientID c rest (mapSet subs stream (mapSet s clientID c))

/-- The method `SubscriptionManager.AddClient`. -/
def SubscriptionManager.AddClient (s : SubscriptionManager) (clientID : String)
    (streams : StrSlice) (c : Conn) : GoError × SubscriptionManager :=
  let r := addLoop clientID c streams.elems s.subscriptions
  (r.1, ⟨r.2⟩)

/-- The first loop of `RemoveClient`: `delete(subscriptions, clientID)` in every stream. -/
def removeEverywhere (clientID : String) (subs : Subscriptions) : Subscriptions :=
  subs.map (fun e => (e.1, mapDelete e.2 clientID))

/-- The second loop of `RemoveClient` over the streams still to visit. -/
def removeLoop (clientID : String) : List String → Subscriptions → GoError × Subscriptions
  | [], subs => (none, subs)
  | stream :: rest, subs =>
    match mapGet subs stream with
    | none => (some ("stream " ++ stream ++ " does not exist"), subs)
    | some s => removeLoop clientID rest (mapSet subs stream (mapDelete s clientID))

/-- The method `SubscriptionManager.RemoveClient`. -/
def SubscriptionManager.RemoveClient (s : SubscriptionManager) (clientID : String)
    (streams : StrSlice) : GoError × SubscriptionManager :=
  let subs1 := if streams = none then removeEverywhere clientID s.subscriptions
               else s.subscriptions
  let r := removeLoop clientID streams.elems subs1
  (r.1, ⟨r.2⟩)

/-- A stream's subscriber set holds no entry for the client. -/
def cleanAt (K : String) (subs : Subscriptions) (c : String) : Prop :=
  ∀ cl, mapGet subs c = some cl → mapDelete cl K = cl

/-- The subscriber set of a stream, `none` for a stream that is not configured. -/
def SubscriptionManager.clientsOf (s : SubscriptionManager) (stream : String) : Option Clients :=
  mapGet s.subscriptions stream

/-- The connection under which a client is registered in a stream, `none` when it is
not a member of that stream's subscriber set. -/
def SubscriptionManager.handleOf (s : SubscriptionManager) (stream clientID : String) :
    Option Conn :=
  (mapGet s.subscriptions stream).bind (fun cl => mapGet cl clientID)

/-- The stream is one of the configured channels. -/
def SubscriptionManager.configured (s : SubscriptionManager) (stream : String) : Bool :=
  (mapGet s.subscriptions stream).isSome

/-- The method `SubscriptionManager.GetSubscriptions`: it returns the field itself.  A Go
map value is a reference and no copy is made, so the caller holds the registry's own map;
what the caller later reads through it is what the manager holds at that later moment,
which is why the argument is the manager as it is when the read happens. -/
def SubscriptionManager.GetSubscriptions (s : SubscriptionManager) : Subscriptions :=
  s.subscriptions

/-- A Go map never holds a key twice: neither the stream map nor any subscriber set. -/
def SubscriptionManager.WellFormed (s : SubscriptionManager) : Prop :=
  UniqueKeys s.subscriptions ∧ ∀ e ∈ s.subscriptions, UniqueKeys e.2

/-! ## The command loop -/

/-- The variable `SUBSCRIBE`. -/
def SUBSCRIBE : String := "SUBSCRIBE"

/-- The variable `UNSUBSCRIBE`. -/
def UNSUBSCRIBE : String := "UNSUBSCRIBE"

/-- The struct `Request`. -/
structure Request where
  Method : String
  Streams : StrSlice
  Id : String
deriving DecidableEq, Repr

/-- The struct `Result`; the field `Result` is a `*string`, `none` is the JSON `null`. -/
structure Result where
  Result : Option String
  Id : String
deriving DecidableEq, Repr

/-- What a call of `Server.subscribe` or `Server.unSubscribe` leaves behind: the error it
returns, the registry, and the messages that reached the client. -/
structure Reply where
  err : GoError
  manager : SubscriptionManager
  sent : List Result
deriving DecidableEq, Repr

/-- The method `Server.subscribe`.  `writeOk` is the outcome of `c.WriteMessage`;
`json.Marshal` of a `Result` (a nil pointer and a string) has no failing case. -/
def subscribe (m : SubscriptionManager) (c : Conn) (clientID : String) (streams : StrSlice)
    (writeOk : Bool) : Reply :=
  match m.AddClient clientID streams c with
  | (some err, m1) => ⟨some ("Failed to add client " ++ clientID ++ ", err=" ++ err), m1, []⟩
  | (none, m1) =>
    let resp : Result := ⟨none, clientID⟩
    if writeOk then ⟨none, m1, [resp]⟩
    else ⟨some ("Failed to write message to client " ++ clientID), m1, []⟩

/-- The method `Server.unSubscribe`, with `writeOk` as in `subscribe`. -/
def unSubscribe (m : SubscriptionManager) (clientID : String) (streams : StrSlice)
    (writeOk : Bool) : Reply :=
  match m.RemoveClient clientID streams with
  | (some err, m1) => ⟨some ("Failed to remove client " ++ clientID ++ ", err=" ++ err), m1, []⟩
  | (none, m1) =>
    let resp : Result := ⟨none, clientID⟩
    if writeOk then ⟨none, m1, [resp]⟩
    else ⟨some ("Failed to write message to client " ++ clientID), m1, []⟩

/-- What one turn of the command loop gets from the connection: `ReadMessage` fails, or it
yields a payload on which `json.Unmarshal` fails, or one that decodes to a `Request`. -/
inductive Inbound where
  | readError
  | unparsable
  | request (req : Request)
deriving DecidableEq, Repr

/-- One turn of the environment of the command loop: what is read, and whether the write
of the acknowledgement (if one is attempted) goes through. -/
structure Turn where
  inbound : Inbound
  writeOk : Bool
deriving DecidableEq, Repr

/-- The `return` statement through which `ProcessMessage` leaves its loop. -/
inductive Exit where
  | readFailed
  | badRequest
  | subscribeFailed
  | unsubscribeFailed
  | unsupportedMethod
deriving DecidableEq, Repr

/-- The state of a session once the turns are used up: `exit = none` means the loop is
still blocked in `ReadMessage`. -/
structure Session where
  manager : SubscriptionManager
  sent : List Result
  exit : Option Exit
deriving DecidableEq, Repr

/-- The method `Server.ProcessMessage`, run against the turns the connection provides. -/
def ProcessMessage (c : Conn) (clientID : String) :
    List Turn → SubscriptionManager → List Result → Session
  | [], m, sent => ⟨m, sent, none⟩
  | ⟨Inbound.readError, _⟩ :: _, m, sent =>
    ⟨(m.RemoveClient clientID none).2, sent, some Exit.readFailed⟩
  | ⟨Inbound.unparsable, _⟩ :: _, m, sent => ⟨m, sent, some Exit.badRequest⟩
  | ⟨Inbound.request req, w⟩ :: rest, m, sent =>
    if req.Method = SUBSCRIBE then
      let r := subscribe m c clientID req.Streams w
      match r.err with
      | some _ =>
        ⟨(r.manager.RemoveClient clientID none).2, sent ++ r.sent, some Exit.subscribeFailed⟩
      | none => ProcessMessage c clientID rest r.manager (sent ++ r.sent)
    else if req.Method = UNSUBSCRIBE then
      let r := unSubscribe m clientID req.Streams w
      match r.err with
      | some _ =>
        ⟨(r.manager.RemoveClient clientID none).2, sent ++ r.sent, some Exit.unsubscribeFailed⟩
      | none => ProcessMessage c clientID rest r.manager (sent ++ r.sent)
    else ⟨(m.RemoveClient clientID none).2, sent, some Exit.unsupportedMethod⟩

/-- The client is in no stream's subscriber set. -/
def SubscriptionManager.absent (s : SubscriptionManager) (clientID : String) : Prop :=
  ∀ stream, s.handleOf stream clientID = none

/-! ## The publisher -/

/-- A Go `float64` as the publisher sees it: the IEEE-754 bit pattern (the publisher does
no arithmetic on a price, it only encodes it). -/
structure Float64 where
  bits : Nat
deriving DecidableEq, Repr

/-- The test `math.IsInf(f, 0) || math.IsNaN(f)`: the eleven exponent bits are all set. -/
def Float64.isInfOrNaN (f : Float64) : Bool := (f.bits / 2 ^ 52) % 2048 == 2047

/-- The struct `Tick`. -/
structure Tick where
  S : String
  P : Float64
deriving DecidableEq, Repr

/-- The call `json.Marshal(tick)`: encoding/json returns an UnsupportedValueError for a
float that is NaN or infinite. The payload is kept as the tick it encodes. -/
def jsonMarshal (tick : Tick) : Option Tick :=
  if tick.P.isInfOrNaN then none else some tick

/-- A text message that reached a client's connection. -/
structure Delivery where
  client : String
  conn : Conn
  payload : Tick
deriving DecidableEq, Repr

/-- The inner loop of `PublishPrices`, `for id, conn := range clients`, over the entries
still to visit.  The map ranged over is the live subscriber set, so an entry deleted
before it is reached is not produced.  `write` is the outcome of `conn.WriteMessage`. -/
def fanOut (write : Conn → Tick → Bool) (stream : String) (tick : Tick) :
    Clients → SubscriptionManager → List Delivery → SubscriptionManager × List Delivery
  | [], m, out => (m, out)
  | (id, conn) :: rest, m, out =>
    if (m.handleOf stream id).isSome then
      match jsonMarshal tick with
      | none => fanOut write stream tick rest m out
      | some resp =>
        if write conn resp then fanOut write stream tick rest m (out ++ [⟨id, conn, resp⟩])
        else fanOut write stream tick rest (m.RemoveClient id none).2 out
    else fanOut write stream tick rest m out

/-- The outer loop of `PublishPrices`, `for stream, clients := range GetSubscriptions()`,
over the streams still to visit.  `getPrice` is the outcome of `marketData.GetPrice`
for this pass (`none` is a returned error). -/
def publishLoop (getPrice : String → Option Float64) (write : Conn → Tick → Bool) :
    List String → SubscriptionManager → List Delivery → SubscriptionManager × List Delivery
  | [], m, out => (m, out)
  | stream :: rest, m, out =>
    match getPrice stream with
    | none => publishLoop getPrice write rest m out
    | some price =>
      let tick : Tick := ⟨stream, price⟩
      let clients := (mapGet m.GetSubscriptions stream).getD []
      let r := fanOut write stream tick clients m out
      publishLoop getPrice write rest r.1 r.2

/-- One firing of the ticker in `Server.PublishPrices`: the body of `case <-ticker.C`. -/
def publishPass (getPrice : String → Option Float64) (write : Conn → Tick → Bool)
    (m : SubscriptionManager) : SubscriptionManager × List Delivery :=
  publishLoop getPrice write (mapKeys m.GetSubscriptions) m []

/-- The method `Server.PublishPrices` over the firings of the ticker it lives to see,
each with the outcomes of that pass. -/
def PublishPrices :
    List ((String → Option Float64) × (Conn → Tick → Bool)) → SubscriptionManager →
      SubscriptionManager × List Delivery
  | [], m => (m, [])
  | env :: later, m =>
    let r := publishPass env.1 env.2 m
    let r2 := PublishPrices later r.1
    (r2.1, r.2 ++ r2.2)

/-- The subscriber set the publisher ranges over for a stream. -/
def SubscriptionManager.clientsAt (m : SubscriptionManager) (stream : String) : Clients :=
  (mapGet m.GetSubscriptions stream).getD []

/-- The payload a stream gets in a pass: there is one when `getPrice` returns a price and
`json.Marshal` encodes the tick. -/
def tickOf (getPrice : String → Option Float64) (stream : String) : Option Tick :=
  (getPrice stream).bind (fun price => jsonMarshal ⟨stream, price⟩)

/-- One delivery of the payload per entry of a subscriber set, in visiting order. -/
def deliveriesTo (cl : Clients) (t : Tick) : List Delivery :=
  cl.map (fun e => ⟨e.1, e.2, t⟩)

/-- The deliveries of a pass over the streams `ks`, stream by stream, when stream `c` has
payload `tk c` and the subscribers `f c` are written to. -/
def expected (tk : String → Option Tick) (f : String → Clients) (ks : List String) :
    List Delivery :=
  ks.flatMap (fun c => match tk c with
    | some t => deliveriesTo (f c) t
    | none => [])

/-- The registry of the fan-out example: A is subscribed to BTC, B to ETH, C to both. -/
def demoRegistry : SubscriptionManager :=
  ⟨[("BTC", [("A", 1), ("C", 3)]), ("ETH", [("B", 2), ("C", 3)])]⟩

/-- The data source of the fan-out example: BTC is at 61000 and ETH at 3010 (the bit
patterns of these two doubles); any other name is an error. -/
def demoPrices (c : String) : Option Float64 :=
  if c = "BTC" then some ⟨4678616589744996352⟩
  else if c = "ETH" then some ⟨4658837475072933888⟩
  else none

/-- Connections of which the one of client C (connection 3) refuses every write. -/
def demoWrite (conn : Conn) (_ : Tick) : Bool := decide (conn ≠ 3)

/-- The messages of a pass that went to one client for one stream. -/
def ticksFor (out : List Delivery) (clientID stream : String) : List Delivery :=
  out.filter (fun d => decide (d.client = clientID ∧ d.payload.S = stream))

/-! ## The price generator of price.go -/

/-- The variable `SYMBOLS`. -/
def SYMBOLS : List String := ["BTC", "ETH", "SOL"]

/-- The struct `PriceGeneratorConfig`. -/
structure PriceGeneratorConfig where
  price : Float
  drift : Float
  diffusion : Float

/-- The type `PriceGeneratorConfigs`. -/
abbrev PriceGeneratorConfigs := List (String × PriceGeneratorConfig)

/-- The struct `PriceGenerator`. -/
structure PriceGenerator where
  symbols : List (String × Bool)
  config : PriceGeneratorConfigs

/-- The constructor `NewPriceGenerator`. -/
def NewPriceGenerator : PriceGenerator :=
  let s := SYMBOLS.foldl (fun s symbol => mapSet s symbol true) []
  let cfg : PriceGeneratorConfigs := []
  let cfg := mapSet cfg "BTC" ⟨60000, 0.02, 0.04⟩
  let cfg := mapSet cfg "ETH" ⟨3000, 0.02, 0.04⟩
  let cfg := mapSet cfg "SOL" ⟨142, 0.02, 0.04⟩
  ⟨s, cfg⟩

/-- The method `PriceGenerator.GetPrice`; `normFloat64` is the value `rand.NormFloat64()`
draws in this call. -/
def PriceGenerator.GetPrice (r : PriceGenerator) (symbol : String) (normFloat64 : Float) :
    (Float × GoError) × PriceGenerator :=
  match mapGet r.config symbol with
  | none => ((0, some (symbol ++ " not supported")), r)
  | some cfg =>
    let dt : Float := 1.0
    let powerA := (cfg.drift - 0.5 * Float.pow cfg.diffusion 2) * dt
    let powerB := cfg.diffusion * Float.sqrt dt * normFloat64
    let currentPrice := cfg.price
    let newPrice := currentPrice * Float.exp (powerA + powerB)
    ((newPrice, none), { r with config := mapSet r.config symbol { cfg with price := newPrice } })

end Stream

namespace Stream

/-! ## Facts about the map operations -/

theorem mapGet_mapSet_self {V : Type} (m : List (String × V)) (k : String) (v : V) :
    mapGet (mapSet m k v) k = some v := by
  induction m with
  | nil => simp [mapSet, mapGet]
  | cons e m ih =>
    obtain ⟨k1, v1⟩ := e
    by_cases h : k1 = k
    · simp [mapSet, mapGet, h]
    · simp [mapSet, mapGet, h, ih]

theorem mapGet_mapSet_ne {V : Type} (m : List (String × V)) (k k2 : String) (v : V)
    (hne : k ≠ k2) : mapGet (mapSet m k v) k2 = mapGet m k2 := by
  induction m with
  | nil => simp [mapSet, mapGet, hne]
  | cons e m ih =>
    obtain ⟨k1, v1⟩ := e
    by_cases h : k1 = k
    · subst h
      simp [mapSet, mapGet, hne]
    · by_cases h2 : k1 = k2
      · subst h2
        simp [mapSet, mapGet, h]
      · simp [mapSet, mapGet, h, h2, ih]

theorem mapSet_of_mapGet {V : Type} (m : List (String × V)) (k : String) (v : V)
    (hget : mapGet m k = some v) : mapSet m k v = m := by
  induction m with
  | nil => simp [mapGet] at hget
  | cons e m ih =>
    obtain ⟨k1, v1⟩ := e
    by_cases h : k1 = k
    · simp [mapGet, h] at hget
      simp [mapSet, h, hget]
    · simp [mapGet, h] at hget
      simp [mapSet, h, ih hget]

theorem mapGet_mapDelete_self {V : Type} (m : List (String × V)) (k : String) :
    mapGet (mapDelete m k) k = none := by
  induction m with
  | nil => simp [mapDelete, mapGet]
  | cons e m ih =>
    obtain ⟨k1, v1⟩ := e
    by_cases h : k1 = k
    · simpa [mapDelete, h] using ih
    · simpa [mapDelete, h, mapGet] using ih

theorem mapGet_mapDelete_ne {V : Type} (m : List (String × V)) (k k2 : String)
    (hne : k2 ≠ k) : mapGet (mapDelete m k) k2 = mapGet m k2 := by
  induction m with
  | nil => simp [mapDelete, mapGet]
  | cons e m ih =>
    obtain ⟨k1, v1⟩ := e
    by_cases h : k1 = k
    · subst h
      have h2 : ¬ k1 = k2 := fun e => hne e.symm
      simpa [mapDelete, mapGet, h2] using ih
    · by_cases h2 : k1 = k2
      · subst h2
        simp [mapDelete, h, mapGet]
      · simpa [mapDelete, h, mapGet, h2] using ih

theorem mapDelete_idem {V : Type} (m : List (String × V)) (k : String) :
    mapDelete (mapDelete m k) k = mapDelete m k := by
  simp [mapDelete, List.filter_filter]

theorem mapGet_removeEverywhere (K : String) (subs : Subscriptions) (c : String) :
    mapGet (removeEverywhere K subs) c = (mapGet subs c).map (fun cl => mapDelete cl K) := by
  induction subs with
  | nil => simp [removeEverywhere, mapGet]
  | cons e m ih =>
    obtain ⟨k1, v1⟩ := e
    by_cases h : k1 = c
    · simp [removeEverywhere, mapGet, h]
    · simpa [removeEverywhere, mapGet, h] using ih

theorem removeEverywhere_idem (K : String) (subs : Subscriptions) :
    removeEverywhere K (removeEverywhere K subs) = removeEverywhere K subs := by
  simp [removeEverywhere, mapDelete_idem]

/-! ## AddClient -/

/-- What the loop of `AddClient` does when every stream it visits is configured. -/
theorem addLoop_all_configured (K : String) (h : Conn) (L : List String) :
    ∀ subs : Subscriptions, (∀ c ∈ L, (mapGet subs c).isSome = true) →
      (addLoop K h L subs).1 = none ∧
      (∀ c, (mapGet (addLoop K h L subs).2 c).isSome = (mapGet subs c).isSome) ∧
      (∀ c ∈ L, (mapGet (addLoop K h L subs).2 c).bind (fun cl => mapGet cl K) = some h) ∧
      (∀ c, c ∉ L → mapGet (addLoop K h L subs).2 c = mapGet subs c) ∧
      (∀ c, (mapGet subs c).bind (fun cl => mapGet cl K) = some h →
        (mapGet (addLoop K h L subs).2 c).bind (fun cl => mapGet cl K) = some h) := by
  induction L with
  | nil => intro subs _; simp [addLoop]
  | cons stream rest ih =>
    intro subs hL
    have hs := hL stream (List.mem_cons_self _ _)
    obtain ⟨cl, hcl⟩ := Option.isSome_iff_exists.mp hs
    have hkeys : ∀ c, (mapGet (mapSet subs stream (mapSet cl K h)) c).isSome
        = (mapGet subs c).isSome := by
      intro c
      by_cases hc : stream = c
      · subst hc; simp [mapGet_mapSet_self, hcl]
      · simp [mapGet_mapSet_ne _ _ _ _ hc]
    have hrest : ∀ c ∈ rest, (mapGet (mapSet subs stream (mapSet cl K h)) c).isSome = true := by
      intro c hc
      rw [hkeys]
      exact hL c (List.mem_cons_of_mem _ hc)
    obtain ⟨i1, i2, i3, i4, i5⟩ := ih (mapSet subs stream (mapSet cl K h)) hrest
    have hnow : (mapGet (mapSet subs stream (mapSet cl K h)) stream).bind
        (fun cl => mapGet cl K) = some h := by
      simp [mapGet_mapSet_self]
    simp only [addLoop, hcl]
    refine ⟨i1, ?_, ?_, ?_, ?_⟩
    · intro c; rw [i2, hkeys]
    · intro c hc
      rcases List.mem_cons.mp hc with hc | hc
      · subst hc; exact i5 _ hnow
      · exact i3 c hc
    · intro c hc
      have hc1 : stream ≠ c := fun e => hc (e ▸ List.mem_cons_self _ _)
      have hc2 : c ∉ rest := fun e => hc (List.mem_cons_of_mem _ e)
      rw [i4 c hc2, mapGet_mapSet_ne _ _ _ _ hc1]
    · intro c hc
      apply i5
      by_cases hcs : stream = c
      · subst hcs; exact hnow
      · rw [mapGet_mapSet_ne _ _ _ _ hcs]; exact hc

/-- What the loop of `AddClient` does when it meets a stream that is not configured: it
stops there with the error, having done what it does on the streams before it. -/
theorem addLoop_stops (K : String) (h : Conn) (p : String → Bool) (L : List String) :
    ∀ subs : Subscriptions, (∀ c, (mapGet subs c).isSome = p c) →
      ∀ bad, (L.dropWhile p).head? = some bad →
        addLoop K h L subs =
          (some ("stream " ++ bad ++ " does not exist"), (addLoop K h (L.takeWhile p) subs).2) := by
  induction L with
  | nil => intro subs _ bad hbad; simp at hbad
  | cons stream rest ih =>
    intro subs hp bad hbad
    cases hps : p stream with
    | false =>
      have hnone : mapGet subs stream = none := by
        have := hp stream
        rw [hps] at this
        simpa using this
      simp [List.dropWhile, hps] at hbad
      subst hbad
      simp [addLoop, hnone, List.takeWhile, hps]
    | true =>
      obtain ⟨cl, hcl⟩ := Option.isSome_iff_exists.mp ((hp stream).trans hps)
      simp only [List.dropWhile, hps] at hbad
      have hkeys : ∀ c, (mapGet (mapSet subs stream (mapSet cl K h)) c).isSome = p c := by
        intro c
        by_cases hc : stream = c
        · subst hc; simp [mapGet_mapSet_self, hps]
        · rw [mapGet_mapSet_ne _ _ _ _ hc]; exact hp c
      simp only [addLoop, hcl, List.takeWhile, hps]
      exact ih _ hkeys bad hbad

/-- C1. When every name of the list is a configured channel, `AddClient` returns no
error; afterwards the client is a member, under the given connection, of the subscriber
set of every channel of the list, and the subscriber set of every channel outside the list
(so the client's membership in it) is what it was before the call. -/
theorem addClient_adds_to_every_listed_channel (s : SubscriptionManager) (K : String)
    (L : StrSlice) (h : Conn) (hL : ∀ c ∈ L.elems, s.configured c = true) :
    (s.AddClient K L h).1 = none ∧
    (∀ c ∈ L.elems, (s.AddClient K L h).2.handleOf c K = some h) ∧
    (∀ c, c ∉ L.elems → (s.AddClient K L h).2.handleOf c K = s.handleOf c K) ∧
    (∀ c, c ∉ L.elems → (s.AddClient K L h).2.clientsOf c = s.clientsOf c) := by
  obtain ⟨a1, _, a3, a4, _⟩ := addLoop_all_configured K h L.elems s.subscriptions hL
  refine ⟨a1, a3, ?_, a4⟩
  intro c hc
  simp only [SubscriptionManager.handleOf, SubscriptionManager.AddClient]
  rw [a4 c hc]

theorem addClient_adds_to_every_listed_channel_witness :
    (∀ c ∈ StrSlice.elems (some ["BTC", "SOL"]),
        (NewServer ["BTC", "ETH", "SOL"]).configured c = true) ∧
    ((NewServer ["BTC", "ETH", "SOL"]).AddClient "K" (some ["BTC", "SOL"]) 7).1 = none ∧
    ((NewServer ["BTC", "ETH", "SOL"]).AddClient "K" (some ["BTC", "SOL"]) 7).2.handleOf
        "SOL" "K" = some 7 :=
  have hL : ∀ c ∈ StrSlice.elems (some ["BTC", "SOL"]),
      (NewServer ["BTC", "ETH", "SOL"]).configured c = true := by
    intro c hc
    simp [StrSlice.elems] at hc
    rcases hc with hc | hc <;> subst hc <;> decide
  have t := addClient_adds_to_every_listed_channel (NewServer ["BTC", "ETH", "SOL"]) "K"
    (some ["BTC", "SOL"]) 7 hL
  ⟨hL, t.1, t.2.1 "SOL" (by simp [StrSlice.elems])⟩

/-- C2. When the list holds a name that is not a configured channel, `AddClient` returns
the error naming the first such name, and the registry it leaves is the one a successful
`AddClient` of the names before it leaves: the client is a member of each of those
channels, and every channel that is not among them keeps its subscriber set. -/
theorem addClient_stops_at_first_unknown (s : SubscriptionManager) (K : String)
    (L : StrSlice) (h : Conn) (hL : ∃ c ∈ L.elems, s.configured c = false) :
    ∃ bad, (L.elems.dropWhile s.configured).head? = some bad ∧
      s.configured bad = false ∧
      (s.AddClient K L h).1 = some ("stream " ++ bad ++ " does not exist") ∧
      (s.AddClient K (some (L.elems.takeWhile s.configured)) h).1 = none ∧
      (s.AddClient K L h).2 = (s.AddClient K (some (L.elems.takeWhile s.configured)) h).2 ∧
      (∀ c ∈ L.elems.takeWhile s.configured, (s.AddClient K L h).2.handleOf c K = some h) ∧
      (∀ c, c ∉ L.elems.takeWhile s.configured →
        (s.AddClient K L h).2.clientsOf c = s.clientsOf c) := by
  obtain ⟨c0, hc0, hc0f⟩ := hL
  have hne : L.elems.dropWhile s.configured ≠ [] := by
    intro hnil
    have hall := List.dropWhile_eq_nil_iff.mp hnil c0 hc0
    rw [hc0f] at hall
    exact Bool.false_ne_true hall
  obtain ⟨bad, tl, hbt⟩ := List.exists_cons_of_ne_nil hne
  have hhead : (L.elems.dropWhile s.configured).head? = some bad := by rw [hbt]; rfl
  have hbad : s.configured bad = false := by
    have h1 := List.head_dropWhile_not s.configured L.elems hne
    have h2 : (L.elems.dropWhile s.configured).head hne = bad := by
      simp [hbt]
    rw [h2] at h1
    simpa using h1
  have hstop := addLoop_stops K h s.configured L.elems s.subscriptions (fun _ => rfl) bad hhead
  have hpre : ∀ c ∈ L.elems.takeWhile s.configured,
      (mapGet s.subscriptions c).isSome = true := by
    intro c hc
    have hcfg : s.configured c = true := List.mem_takeWhile_imp hc
    exact hcfg
  obtain ⟨p1, _, p2, p4, _⟩ := addLoop_all_configured K h
    (L.elems.takeWhile s.configured) s.subscriptions hpre
  have hstate : (s.AddClient K L h).2
      = (s.AddClient K (some (L.elems.takeWhile s.configured)) h).2 := by
    simp only [SubscriptionManager.AddClient, hstop]
    rfl
  refine ⟨bad, hhead, hbad, ?_, p1, hstate, ?_, ?_⟩
  · simp only [SubscriptionManager.AddClient, hstop]
  · intro c hc; rw [hstate]; exact p2 c hc
  · intro c hc; rw [hstate]; exact p4 c hc

theorem addClient_stops_at_first_unknown_witness :
    ∃ bad, ((StrSlice.elems (some ["BTC", "XXX", "ETH"])).dropWhile
        (NewServer ["BTC", "ETH", "SOL"]).configured).head? = some bad ∧
      ((NewServer ["BTC", "ETH", "SOL"]).AddClient "K" (some ["BTC", "XXX", "ETH"]) 7).1
        = some ("stream " ++ bad ++ " does not exist") ∧
      ((NewServer ["BTC", "ETH", "SOL"]).AddClient "K" (some ["BTC", "XXX", "ETH"]) 7).2
        = ((NewServer ["BTC", "ETH", "SOL"]).AddClient "K" (some ["BTC"]) 7).2 :=
  have t := addClient_stops_at_first_unknown (NewServer ["BTC", "ETH", "SOL"]) "K"
    (some ["BTC", "XXX", "ETH"]) 7 ⟨"XXX", by simp [StrSlice.elems], by decide⟩
  t.elim fun bad hb => ⟨bad, hb.1, hb.2.2.1, by decide⟩

/-! ## RemoveClient -/

theorem removeLoop_keeps_clean (K : String) (c : String) (L : List String) :
    ∀ subs : Subscriptions, cleanAt K subs c → cleanAt K (removeLoop K L subs).2 c := by
  induction L with
  | nil => intro subs hc; simpa [removeLoop] using hc
  | cons stream rest ih =>
    intro subs hc
    cases hget : mapGet subs stream with
    | none => simpa [removeLoop, hget] using hc
    | some cl0 =>
      simp only [removeLoop, hget]
      apply ih
      intro cl hcl
      by_cases hs : stream = c
      · subst hs
        rw [mapGet_mapSet_self] at hcl
        cases hcl
        exact mapDelete_idem cl0 K
      · rw [mapGet_mapSet_ne _ _ _ _ hs] at hcl
        exact hc cl hcl

theorem removeLoop_keeps_keys (K : String) (L : List String) :
    ∀ (subs : Subscriptions) (c : String),
      (mapGet (removeLoop K L subs).2 c).isSome = (mapGet subs c).isSome := by
  induction L with
  | nil => intro subs c; simp [removeLoop]
  | cons stream rest ih =>
    intro subs c
    cases hget : mapGet subs stream with
    | none => simp [removeLoop, hget]
    | some cl0 =>
      simp only [removeLoop, hget]
      rw [ih]
      by_cases hs : stream = c
      · subst hs; simp [mapGet_mapSet_self, hget]
      · rw [mapGet_mapSet_ne _ _ _ _ hs]

/-- Running the second loop of `RemoveClient` again on its own result changes nothing and
ends the same way. -/
theorem removeLoop_again (K : String) (L : List String) :
    ∀ subs : Subscriptions,
      removeLoop K L (removeLoop K L subs).2 = removeLoop K L subs := by
  induction L with
  | nil => intro subs; simp [removeLoop]
  | cons stream rest ih =>
    intro subs
    cases hget : mapGet subs stream with
    | none => simp [removeLoop, hget]
    | some cl0 =>
      simp only [removeLoop, hget]
      have hclean : cleanAt K (removeLoop K rest (mapSet subs stream (mapDelete cl0 K))).2
          stream := by
        apply removeLoop_keeps_clean
        intro cl hcl
        rw [mapGet_mapSet_self] at hcl
        cases hcl
        exact mapDelete_idem cl0 K
      have hsome : (mapGet (removeLoop K rest (mapSet subs stream (mapDelete cl0 K))).2
          stream).isSome = true := by
        rw [removeLoop_keeps_keys]
        simp [mapGet_mapSet_self]
      obtain ⟨cl1, hcl1⟩ := Option.isSome_iff_exists.mp hsome
      simp only [hcl1]
      rw [hclean cl1 hcl1, mapSet_of_mapGet _ _ _ hcl1]
      exact ih _

/-- C8. A second `RemoveClient` with the same client and the same list, right after the
first, leaves the registry exactly as the first left it (the client is in none of the
subscriber sets the call touches any more, and deleting it again changes nothing); it
also returns what the first call returned. -/
theorem removeClient_twice_is_once (s : SubscriptionManager) (K : String) (L : StrSlice) :
    ((s.RemoveClient K L).2.RemoveClient K L).2 = (s.RemoveClient K L).2 ∧
    ((s.RemoveClient K L).2.RemoveClient K L).1 = (s.RemoveClient K L).1 := by
  cases L with
  | none =>
    simp [SubscriptionManager.RemoveClient, StrSlice.elems, removeLoop, removeEverywhere_idem]
  | some l =>
    simp [SubscriptionManager.RemoveClient, StrSlice.elems, removeLoop_again]

/-- C3, refuted as stated: with a list of zero elements that is not `nil` (what
`"streams": []` decodes to) the call leaves the client where it was. -/
theorem removeClient_empty_list_keeps_client :
    (StrSlice.elems (some [])).length = 0 ∧
    ((SubscriptionManager.mk [("BTC", [("K", 7)]), ("ETH", [])]).RemoveClient "K"
      (some [])).2.handleOf "BTC" "K" = some 7 := by
  decide

/-- `RemoveClient` with the `nil` list: no error, the client is gone from every
subscriber set, every other client is where it was. -/
theorem removeClient_nil (s : SubscriptionManager) (K : String) :
    (s.RemoveClient K none).1 = none ∧
    (∀ c, (s.RemoveClient K none).2.handleOf c K = none) ∧
    (∀ c k, k ≠ K → (s.RemoveClient K none).2.handleOf c k = s.handleOf c k) := by
  refine ⟨?_, ?_, ?_⟩
  · simp [SubscriptionManager.RemoveClient, StrSlice.elems, removeLoop]
  · intro c
    simp only [SubscriptionManager.RemoveClient, StrSlice.elems, removeLoop,
      SubscriptionManager.handleOf, if_true, Option.getD_none]
    rw [mapGet_removeEverywhere]
    cases mapGet s.subscriptions c with
    | none => rfl
    | some cl => simp [mapGet_mapDelete_self]
  · intro c k hk
    simp only [SubscriptionManager.RemoveClient, StrSlice.elems, removeLoop,
      SubscriptionManager.handleOf, if_true, Option.getD_none]
    rw [mapGet_removeEverywhere]
    cases mapGet s.subscriptions c with
    | none => rfl
    | some cl => simp [mapGet_mapDelete_ne _ _ _ hk]

/-- C3, amended. `RemoveClient` with the `nil` list returns no error and removes the
client from the subscriber set of every channel, whatever channels it was in; every
other client keeps its memberships and the configured channels stay the same.  With a
list of zero elements that is not `nil` the call returns no error and leaves the registry
as it is. -/
theorem removeClient_nil_removes_everywhere (s : SubscriptionManager) (K : String) :
    (s.RemoveClient K none).1 = none ∧
    (∀ c, (s.RemoveClient K none).2.handleOf c K = none) ∧
    (∀ c k, k ≠ K → (s.RemoveClient K none).2.handleOf c k = s.handleOf c k) ∧
    (∀ c, (s.RemoveClient K none).2.configured c = s.configured c) ∧
    s.RemoveClient K (some []) = (none, s) := by
  obtain ⟨h1, h2, h3⟩ := removeClient_nil s K
  refine ⟨h1, h2, h3, ?_, ?_⟩
  · intro c
    simp only [SubscriptionManager.RemoveClient, StrSlice.elems, removeLoop,
      SubscriptionManager.configured, if_true, Option.getD_none]
    rw [mapGet_removeEverywhere]
    cases mapGet s.subscriptions c <;> rfl
  · simp [SubscriptionManager.RemoveClient, StrSlice.elems, removeLoop]

/-! ## The command loop -/

/-- C4, refuted as stated: a SUBSCRIBE request with id "1" on the connection of client "K"
is processed without error, and the Result written carries "K", not "1". -/
theorem result_id_differs_from_request_id :
    (subscribe (NewServer ["BTC", "ETH", "SOL"]) 7 "K" (some ["BTC"]) true).err = none ∧
    (ProcessMessage 7 "K" [⟨Inbound.request ⟨SUBSCRIBE, some ["BTC"], "1"⟩, true⟩]
      (NewServer ["BTC", "ETH", "SOL"]) []).sent = [⟨none, "K"⟩] ∧
    (⟨none, "K"⟩ : Result).Id ≠ (⟨SUBSCRIBE, some ["BTC"], "1"⟩ : Request).Id := by
  decide

/-- C4, amended. For every SUBSCRIBE or UNSUBSCRIBE request that is processed without
error (`subscribe`, `unSubscribe` return no error), exactly one Result is written for it;
its result is null and its id is the client id of the connection, whatever id the request
carries; the command loop then goes on with the next message. -/
theorem result_carries_client_id (m : SubscriptionManager) (c : Conn) (K : String)
    (req : Request) (w : Bool) (rest : List Turn) (sent : List Result) :
    (req.Method = SUBSCRIBE → (subscribe m c K req.Streams w).err = none →
      (subscribe m c K req.Streams w).sent = [⟨none, K⟩] ∧
      ProcessMessage c K (⟨Inbound.request req, w⟩ :: rest) m sent =
        ProcessMessage c K rest (subscribe m c K req.Streams w).manager
          (sent ++ [⟨none, K⟩])) ∧
    (req.Method = UNSUBSCRIBE → (unSubscribe m K req.Streams w).err = none →
      (unSubscribe m K req.Streams w).sent = [⟨none, K⟩] ∧
      ProcessMessage c K (⟨Inbound.request req, w⟩ :: rest) m sent =
        ProcessMessage c K rest (unSubscribe m K req.Streams w).manager
          (sent ++ [⟨none, K⟩])) := by
  constructor
  · intro hm herr
    have hsent : (subscribe m c K req.Streams w).sent = [⟨none, K⟩] := by
      unfold subscribe at herr ⊢
      rcases hadd : m.AddClient K req.Streams c with ⟨e, m1⟩
      rw [hadd] at herr
      cases e with
      | some e => simp at herr
      | none => cases w <;> simp at herr ⊢
    refine ⟨hsent, ?_⟩
    simp only [ProcessMessage, hm, if_true]
    rw [herr, hsent]
  · intro hm herr
    have hsent : (unSubscribe m K req.Streams w).sent = [⟨none, K⟩] := by
      unfold unSubscribe at herr ⊢
      rcases hrem : m.RemoveClient K req.Streams with ⟨e, m1⟩
      rw [hrem] at herr
      cases e with
      | some e => simp at herr
      | none => cases w <;> simp at herr ⊢
    refine ⟨hsent, ?_⟩
    have hne : ¬ UNSUBSCRIBE = SUBSCRIBE := by decide
    simp only [ProcessMessage, hm, hne, if_true, if_false]
    rw [herr, hsent]

theorem result_carries_client_id_witness :
    (subscribe (NewServer ["BTC", "ETH", "SOL"]) 7 "K" (some ["BTC"]) true).err = none ∧
    (subscribe (NewServer ["BTC", "ETH", "SOL"]) 7 "K" (some ["BTC"]) true).sent
      = [⟨none, "K"⟩] :=
  ⟨by decide,
   ((result_carries_client_id (NewServer ["BTC", "ETH", "SOL"]) 7 "K"
      ⟨SUBSCRIBE, some ["BTC"], "1"⟩ true [] []).1 rfl (by decide)).1⟩

/-- C5, the failing run: client "K" subscribes to BTC, then sends a payload that does not
decode; `ProcessMessage` returns through the bad-request exit and "K" is still in the
subscriber set of BTC. -/
theorem processMessage_bad_request_keeps_client :
    (ProcessMessage 7 "K"
      [⟨Inbound.request ⟨SUBSCRIBE, some ["BTC"], "1"⟩, true⟩, ⟨Inbound.unparsable, true⟩]
      (NewServer ["BTC", "ETH", "SOL"]) []).exit = some Exit.badRequest ∧
    (ProcessMessage 7 "K"
      [⟨Inbound.request ⟨SUBSCRIBE, some ["BTC"], "1"⟩, true⟩, ⟨Inbound.unparsable, true⟩]
      (NewServer ["BTC", "ETH", "SOL"]) []).manager.handleOf "BTC" "K" = some 7 := by
  decide

/-- Every exit of `ProcessMessage` other than the bad-request one leaves the client in no
subscriber set: a failed read, a failed SUBSCRIBE, a failed UNSUBSCRIBE and an unsupported
method all end in `RemoveClient(clientID, nil)`. -/
theorem processMessage_other_exits_remove_client (c : Conn) (K : String) (turns : List Turn) :
    ∀ (m : SubscriptionManager) (sent : List Result) (e : Exit),
      (ProcessMessage c K turns m sent).exit = some e → e ≠ Exit.badRequest →
        (ProcessMessage c K turns m sent).manager.absent K := by
  induction turns with
  | nil => intro m sent e he; simp [ProcessMessage] at he
  | cons t rest ih =>
    intro m sent e he hne
    obtain ⟨inb, w⟩ := t
    cases inb with
    | readError =>
      simp only [ProcessMessage]
      exact (removeClient_nil m K).2.1
    | unparsable =>
      simp only [ProcessMessage] at he
      cases he
      exact absurd rfl hne
    | request req =>
      simp only [ProcessMessage] at he ⊢
      split
      · rename_i hm
        simp only [hm, if_true] at he
        split
        · exact (removeClient_nil _ K).2.1
        · rename_i herr
          simp only [herr] at he
          exact ih _ _ e he hne
      · rename_i hm
        simp only [hm, if_false] at he
        split
        · rename_i hm2
          simp only [hm2, if_true] at he
          split
          · exact (removeClient_nil _ K).2.1
          · rename_i herr
            simp only [herr] at he
            exact ih _ _ e he hne
        · exact (removeClient_nil _ K).2.1

theorem processMessage_other_exits_remove_client_witness :
    (ProcessMessage 7 "K"
      [⟨Inbound.request ⟨SUBSCRIBE, some ["BTC"], "1"⟩, true⟩, ⟨Inbound.readError, true⟩]
      (NewServer ["BTC", "ETH", "SOL"]) []).exit = some Exit.readFailed ∧
    (ProcessMessage 7 "K"
      [⟨Inbound.request ⟨SUBSCRIBE, some ["BTC"], "1"⟩, true⟩, ⟨Inbound.readError, true⟩]
      (NewServer ["BTC", "ETH", "SOL"]) []).manager.absent "K" :=
  ⟨by decide,
   processMessage_other_exits_remove_client 7 "K"
    [⟨Inbound.request ⟨SUBSCRIBE, some ["BTC"], "1"⟩, true⟩, ⟨Inbound.readError, true⟩]
    (NewServer ["BTC", "ETH", "SOL"]) [] Exit.readFailed (by decide) (by decide)⟩

/-! ## The publisher -/

theorem removeClient_nil_again (m : SubscriptionManager) (C : String) :
    ((m.RemoveClient C none).2.RemoveClient C none).2 = (m.RemoveClient C none).2 := by
  simp [SubscriptionManager.RemoveClient, StrSlice.elems, removeLoop, removeEverywhere_idem]

theorem mapGet_isSome_of_mem {V : Type} (m : List (String × V)) (e : String × V)
    (he : e ∈ m) : (mapGet m e.1).isSome = true := by
  induction m with
  | nil => simp at he
  | cons a m ih =>
    obtain ⟨k1, v1⟩ := a
    by_cases h : k1 = e.1
    · simp [mapGet, h]
    · rcases List.mem_cons.mp he with he | he
      · subst he; exact absurd rfl h
      · simpa [mapGet, h] using ih he

theorem handleOf_eq_clientsAt (m : SubscriptionManager) (c k : String) :
    m.handleOf c k = mapGet (m.clientsAt c) k := by
  simp only [SubscriptionManager.handleOf, SubscriptionManager.clientsAt,
    SubscriptionManager.GetSubscriptions]
  cases mapGet m.subscriptions c <;> simp [mapGet]

/-- The inner loop when `json.Marshal` refuses the tick: nothing is written. -/
theorem fanOut_unencodable (write : Conn → Tick → Bool) (stream : String) (tick : Tick)
    (hm : jsonMarshal tick = none) :
    ∀ (rest : Clients) (m : SubscriptionManager) (out : List Delivery),
      fanOut write stream tick rest m out = (m, out) := by
  intro rest
  induction rest with
  | nil => intro m out; rfl
  | cons e rest ih =>
    intro m out
    obtain ⟨id, conn⟩ := e
    simp only [fanOut, hm]
    split <;> exact ih m out

/-- The inner loop when every write goes through. -/
theorem fanOut_all_succeed (write : Conn → Tick → Bool) (stream : String) (tick : Tick)
    (hm : jsonMarshal tick = some tick) :
    ∀ (rest : Clients) (m : SubscriptionManager) (out : List Delivery),
      (∀ e ∈ rest, write e.2 tick = true) →
      (∀ e ∈ rest, (m.handleOf stream e.1).isSome = true) →
      fanOut write stream tick rest m out = (m, out ++ deliveriesTo rest tick) := by
  intro rest
  induction rest with
  | nil => intro m out _ _; simp [fanOut, deliveriesTo]
  | cons e rest ih =>
    intro m out hw hp
    obtain ⟨id, conn⟩ := e
    have h1 := hw (id, conn) (List.mem_cons_self _ _)
    have h2 := hp (id, conn) (List.mem_cons_self _ _)
    simp only at h1 h2
    simp only [fanOut, hm, h1, h2, if_true]
    rw [ih m _ (fun e he => hw e (List.mem_cons_of_mem _ he))
      (fun e he => hp e (List.mem_cons_of_mem _ he))]
    simp [deliveriesTo]

/-- The inner loop when the writes to client `C` fail and all others go through. -/
theorem fanOut_one_fails (write : Conn → Tick → Bool) (stream : String) (tick : Tick)
    (C : String) (hm : jsonMarshal tick = some tick) :
    ∀ (rest : Clients) (m : SubscriptionManager) (out : List Delivery),
      (∀ e ∈ rest, write e.2 tick = decide (e.1 ≠ C)) →
      (∀ e ∈ rest, (m.handleOf stream e.1).isSome = true ∨
        (e.1 = C ∧ (m.RemoveClient C none).2 = m)) →
      fanOut write stream tick rest m out =
        (if C ∈ mapKeys rest then (m.RemoveClient C none).2 else m,
          out ++ deliveriesTo (mapDelete rest C) tick) := by
  intro rest
  induction rest with
  | nil => intro m out _ _; simp [fanOut, deliveriesTo, mapKeys, mapDelete]
  | cons e rest ih =>
    intro m out hw hp
    obtain ⟨id, conn⟩ := e
    have h1 := hw (id, conn) (List.mem_cons_self _ _)
    have h2 := hp (id, conn) (List.mem_cons_self _ _)
    have hw2 : ∀ e ∈ rest, write e.2 tick = decide (e.1 ≠ C) :=
      fun e he => hw e (List.mem_cons_of_mem _ he)
    have hp2 := fun e he => hp e (List.mem_cons_of_mem _ he)
    simp only at h1 h2
    by_cases hid : id = C
    · subst hid
      have hwr : write conn tick = false := by simpa using h1
      by_cases hpres : (m.handleOf stream id).isSome = true
      · simp only [fanOut, hm, hpres, hwr, if_true]
        have hp3 : ∀ e ∈ rest,
            ((m.RemoveClient id none).2.handleOf stream e.1).isSome = true ∨
            (e.1 = id ∧ ((m.RemoveClient id none).2.RemoveClient id none).2
              = (m.RemoveClient id none).2) := by
          intro e he
          by_cases hec : e.1 = id
          · exact Or.inr ⟨hec, removeClient_nil_again m id⟩
          · left
            rw [(removeClient_nil m id).2.2 stream e.1 hec]
            rcases hp2 e he with h | h
            · exact h
            · exact absurd h.1 hec
        rw [ih _ _ hw2 hp3, removeClient_nil_again]
        simp [mapKeys, mapDelete]
      · have hfix : (m.RemoveClient id none).2 = m := by
          rcases h2 with h | h
          · exact absurd h hpres
          · exact h.2
        simp only [fanOut, hpres]
        rw [ih _ _ hw2 hp2, hfix]
        simp [mapKeys, mapDelete]
    · have hwr : write conn tick = true := by simpa [hid] using h1
      have hpres : (m.handleOf stream id).isSome = true := by
        rcases h2 with h | h
        · exact h
        · exact absurd h.1 hid
      simp only [fanOut, hm, hpres, hwr, if_true]
      rw [ih _ _ hw2 hp2]
      have hCid : ¬ C = id := fun h => hid h.symm
      have hiff : C ∈ mapKeys ((id, conn) :: rest) ↔ C ∈ mapKeys rest := by
        simp [mapKeys, hCid]
      rw [if_congr hiff rfl rfl]
      simp [mapDelete, deliveriesTo, hid]

theorem jsonMarshal_some (tick t : Tick) (h : jsonMarshal tick = some t) : t = tick := by
  unfold jsonMarshal at h
  split at h
  · cases h
  · cases h; rfl

theorem clientsAt_removeClient (m : SubscriptionManager) (C c : String) :
    (m.RemoveClient C none).2.clientsAt c = mapDelete (m.clientsAt c) C := by
  simp only [SubscriptionManager.RemoveClient, StrSlice.elems, removeLoop,
    SubscriptionManager.clientsAt, SubscriptionManager.GetSubscriptions, if_true,
    Option.getD_none]
  rw [mapGet_removeEverywhere]
  cases mapGet m.subscriptions c <;> simp [mapDelete]

theorem not_mem_mapKeys_mapDelete {V : Type} (m : List (String × V)) (k : String) :
    k ∉ mapKeys (mapDelete m k) := by
  intro h
  simp only [mapKeys, mapDelete, List.mem_map, List.mem_filter] at h
  obtain ⟨e, ⟨_, he⟩, hk⟩ := h
  simp [hk] at he

/-- The outer loop when every write goes through: the registry is not touched. -/
theorem publishLoop_all_succeed (getPrice : String → Option Float64)
    (write : Conn → Tick → Bool) (m : SubscriptionManager)
    (hw : ∀ c, ∀ e ∈ m.clientsAt c, ∀ t, write e.2 t = true) :
    ∀ (ks : List String) (out : List Delivery),
      publishLoop getPrice write ks m out =
        (m, out ++ expected (tickOf getPrice) m.clientsAt ks) := by
  intro ks
  induction ks with
  | nil => intro out; simp [publishLoop, expected]
  | cons stream rest ih =>
    intro out
    cases hp : getPrice stream with
    | none =>
      simp only [publishLoop, hp]
      rw [ih]
      simp [expected, tickOf, hp]
    | some price =>
      simp only [publishLoop, hp]
      cases hj : jsonMarshal ⟨stream, price⟩ with
      | none =>
        rw [fanOut_unencodable write stream _ hj, ih]
        simp [expected, tickOf, hp, hj]
      | some t =>
        have ht := jsonMarshal_some _ _ hj
        subst ht
        have hcl : (mapGet m.GetSubscriptions stream).getD [] = m.clientsAt stream := rfl
        rw [hcl, fanOut_all_succeed write stream _ hj _ m out
          (fun e he => hw stream e he _)
          (fun e he => by
            rw [handleOf_eq_clientsAt]; exact mapGet_isSome_of_mem _ e he), ih]
        simp [expected, tickOf, hp, hj]

/-- The outer loop when the writes to client `C` fail and all others go through. -/
theorem publishLoop_one_fails (getPrice : String → Option Float64)
    (write : Conn → Tick → Bool) (C : String) :
    ∀ (ks : List String) (m : SubscriptionManager) (out : List Delivery),
      (∀ c, ∀ e ∈ m.clientsAt c, ∀ t, write e.2 t = decide (e.1 ≠ C)) →
      publishLoop getPrice write ks m out =
        (if ks.any (fun c => (tickOf getPrice c).isSome &&
              decide (C ∈ mapKeys (m.clientsAt c))) = true
          then (m.RemoveClient C none).2 else m,
         out ++ expected (tickOf getPrice) (fun c => mapDelete (m.clientsAt c) C) ks) := by
  intro ks
  induction ks with
  | nil => intro m out _; simp [publishLoop, expected]
  | cons stream rest ih =>
    intro m out hw
    cases hp : getPrice stream with
    | none =>
      simp only [publishLoop, hp]
      rw [ih m out hw]
      simp [expected, tickOf, hp]
    | some price =>
      simp only [publishLoop, hp]
      cases hj : jsonMarshal ⟨stream, price⟩ with
      | none =>
        rw [fanOut_unencodable write stream _ hj, ih m out hw]
        simp [expected, tickOf, hp, hj]
      | some t =>
        have ht := jsonMarshal_some _ _ hj
        subst ht
        have hcl : (mapGet m.GetSubscriptions stream).getD [] = m.clientsAt stream := rfl
        rw [hcl, fanOut_one_fails write stream _ C hj _ m out
          (fun e he => hw stream e he _)
          (fun e he => Or.inl (by
            rw [handleOf_eq_clientsAt]; exact mapGet_isSome_of_mem _ e he))]
        by_cases hC : C ∈ mapKeys (m.clientsAt stream)
        · have hw2 : ∀ c, ∀ e ∈ (m.RemoveClient C none).2.clientsAt c, ∀ t,
              write e.2 t = decide (e.1 ≠ C) := by
            intro c e he t
            rw [clientsAt_removeClient] at he
            exact hw c e (List.mem_filter.mp he).1 t
          have hany : rest.any (fun c => (tickOf getPrice c).isSome &&
              decide (C ∈ mapKeys ((m.RemoveClient C none).2.clientsAt c))) = false := by
            rw [List.any_eq_false]
            intro c _
            simp [clientsAt_removeClient, not_mem_mapKeys_mapDelete]
          simp only [hC, if_true]
          rw [ih _ _ hw2, hany]
          simp [expected, tickOf, hp, hj, hC, clientsAt_removeClient, mapDelete_idem]
        · simp only [hC, if_false]
          rw [ih m _ hw]
          simp [expected, tickOf, hp, hj, hC]

theorem mapGet_of_mem {V : Type} (m : List (String × V)) (hu : UniqueKeys m)
    (e : String × V) (he : e ∈ m) : mapGet m e.1 = some e.2 := by
  induction m with
  | nil => simp at he
  | cons a m ih =>
    obtain ⟨k1, v1⟩ := a
    have hu2 : k1 ∉ mapKeys m ∧ UniqueKeys m := by
      simpa [UniqueKeys, mapKeys] using hu
    rcases List.mem_cons.mp he with he | he
    · subst he; simp [mapGet]
    · have hne : ¬ k1 = e.1 := by
        intro h
        apply hu2.1
        rw [h]
        exact List.mem_map_of_mem Prod.fst he
      simpa [mapGet, hne] using ih hu2.2 he

theorem mem_of_mapGet {V : Type} (m : List (String × V)) (k : String) (v : V)
    (h : mapGet m k = some v) : (k, v) ∈ m := by
  induction m with
  | nil => simp [mapGet] at h
  | cons a m ih =>
    obtain ⟨k1, v1⟩ := a
    by_cases hk : k1 = k
    · simp [mapGet, hk] at h
      simp [hk, h]
    · simp [mapGet, hk] at h
      exact List.mem_cons_of_mem _ (ih h)

theorem mapGet_isSome_iff_mem_keys {V : Type} (m : List (String × V)) (k : String) :
    (mapGet m k).isSome = true ↔ k ∈ mapKeys m := by
  constructor
  · intro h
    obtain ⟨v, hv⟩ := Option.isSome_iff_exists.mp h
    exact List.mem_map_of_mem Prod.fst (mem_of_mapGet m k v hv)
  · intro h
    obtain ⟨e, he, hk⟩ := List.mem_map.mp h
    rw [← hk]
    exact mapGet_isSome_of_mem m e he

theorem uniqueKeys_mapDelete {V : Type} (m : List (String × V)) (k : String)
    (hu : UniqueKeys m) : UniqueKeys (mapDelete m k) := by
  unfold UniqueKeys mapKeys mapDelete at *
  exact (List.Nodup.sublist ((List.filter_sublist m).map Prod.fst) hu)

theorem uniqueKeys_clientsAt (m : SubscriptionManager) (hwf : m.WellFormed) (c : String) :
    UniqueKeys (m.clientsAt c) := by
  simp only [SubscriptionManager.clientsAt, SubscriptionManager.GetSubscriptions]
  cases h : mapGet m.subscriptions c with
  | none => simp [UniqueKeys, mapKeys]
  | some cl => exact hwf.2 _ (mem_of_mapGet _ _ _ h)

/-- The entries of a map under one key: the one `mapGet` finds, or none. -/
theorem filter_key {V : Type} (m : List (String × V)) (hu : UniqueKeys m) (k : String) :
    m.filter (fun e => decide (e.1 = k)) =
      match mapGet m k with
      | some v => [(k, v)]
      | none => [] := by
  induction m with
  | nil => simp [mapGet]
  | cons a m ih =>
    obtain ⟨k1, v1⟩ := a
    have hu2 : k1 ∉ mapKeys m ∧ UniqueKeys m := by
      simpa [UniqueKeys, mapKeys] using hu
    by_cases hk : k1 = k
    · subst hk
      have hnone : mapGet m k1 = none := by
        cases hg : mapGet m k1 with
        | none => rfl
        | some v =>
          exact absurd ((mapGet_isSome_iff_mem_keys m k1).mp (by simp [hg])) hu2.1
      have ih2 := ih hu2.2
      rw [hnone] at ih2
      simp only at ih2
      simp [List.filter, mapGet, ih2]
    · simpa [List.filter, mapGet, hk] using ih hu2.2

theorem ticksFor_deliveriesTo (cl : Clients) (hu : UniqueKeys cl) (t : Tick)
    (k st : String) :
    ticksFor (deliveriesTo cl t) k st =
      if t.S = st then
        match mapGet cl k with
        | some conn => [⟨k, conn, t⟩]
        | none => []
      else [] := by
  by_cases hs : t.S = st
  · simp only [ticksFor, deliveriesTo, List.filter_map, hs, if_true]
    have hf : ((fun d : Delivery => decide (d.client = k ∧ d.payload.S = st)) ∘
        (fun e : String × Conn => (⟨e.1, e.2, t⟩ : Delivery)))
        = (fun e : String × Conn => decide (e.1 = k)) := by
      funext e; simp [hs]
    rw [hf, filter_key cl hu k]
    cases mapGet cl k <;> simp
  · simp only [ticksFor, deliveriesTo, hs, if_false]
    rw [List.filter_eq_nil_iff]
    intro d hd
    obtain ⟨e, _, rfl⟩ := List.mem_map.mp hd
    simp [hs]

/-- The messages one client gets for one stream out of the deliveries of a pass. -/
theorem ticksFor_expected (tk : String → Option Tick) (f : String → Clients)
    (htk : ∀ c t, tk c = some t → t.S = c) (hf : ∀ c, UniqueKeys (f c)) (k st : String) :
    ∀ ks : List String, ks.Nodup →
      ticksFor (expected tk f ks) k st =
        if st ∈ ks then
          match tk st, mapGet (f st) k with
          | some t, some conn => [⟨k, conn, t⟩]
          | _, _ => []
        else [] := by
  intro ks
  induction ks with
  | nil => intro _; simp [expected, ticksFor]
  | cons c ks ih =>
    intro hnd
    obtain ⟨hc, hnd2⟩ := List.nodup_cons.mp hnd
    have hsplit : ticksFor (expected tk f (c :: ks)) k st =
        ticksFor (match tk c with
          | some t => deliveriesTo (f c) t
          | none => []) k st ++ ticksFor (expected tk f ks) k st := by
      simp [expected, ticksFor, List.filter_append]
    rw [hsplit, ih hnd2]
    by_cases hcs : c = st
    · subst hcs
      simp only [hc, if_false, List.mem_cons_self, if_true, List.append_nil]
      cases htc : tk c with
      | none => simp [ticksFor]
      | some t =>
        simp only
        rw [ticksFor_deliveriesTo _ (hf c), if_pos (htk c t htc)]
        cases mapGet (f c) k <;> rfl
    · have hhead : ticksFor (match tk c with
          | some t => deliveriesTo (f c) t
          | none => []) k st = [] := by
        cases htc : tk c with
        | none => simp [ticksFor]
        | some t =>
          simp only
          rw [ticksFor_deliveriesTo _ (hf c)]
          have : ¬ t.S = st := by rw [htk c t htc]; exact hcs
          simp [this]
      have hiff : st ∈ c :: ks ↔ st ∈ ks := by
        have hsc : ¬ st = c := fun h => hcs h.symm
        simp [List.mem_cons, hsc]
      rw [hhead, if_congr hiff rfl rfl]
      simp

theorem tickOf_stream (getPrice : String → Option Float64) (c : String) (t : Tick)
    (h : tickOf getPrice c = some t) : t.S = c := by
  unfold tickOf at h
  cases hp : getPrice c with
  | none => simp [hp] at h
  | some v =>
    simp only [hp, Option.some_bind] at h
    rw [jsonMarshal_some _ _ h]

theorem write_of_handle (m : SubscriptionManager) (hwf : m.WellFormed) (c : String)
    (e : String × Conn) (he : e ∈ m.clientsAt c) : m.handleOf c e.1 = some e.2 := by
  rw [handleOf_eq_clientsAt]
  exact mapGet_of_mem _ (uniqueKeys_clientsAt m hwf c) e he

theorem clientsAt_of_not_key (m : SubscriptionManager) (c : String)
    (h : c ∉ mapKeys m.GetSubscriptions) : m.clientsAt c = [] := by
  have hn : mapGet m.GetSubscriptions c = none := by
    cases hg : mapGet m.GetSubscriptions c with
    | none => rfl
    | some v =>
      exact absurd ((mapGet_isSome_iff_mem_keys _ c).mp (by simp [hg])) h
  simp [SubscriptionManager.clientsAt, hn]

/-- The messages one client gets for one stream in a pass whose deliveries are the
expected ones for the subscriber sets `f`. -/
theorem ticksFor_pass (getPrice : String → Option Float64) (m : SubscriptionManager)
    (hwf : m.WellFormed) (f : String → Clients) (hf : ∀ c, UniqueKeys (f c))
    (hempty : ∀ c, m.clientsAt c = [] → f c = []) (k c : String) :
    ticksFor (expected (tickOf getPrice) f (mapKeys m.GetSubscriptions)) k c =
      match getPrice c, mapGet (f c) k with
      | some v, some conn => if v.isInfOrNaN = true then [] else [⟨k, conn, ⟨c, v⟩⟩]
      | _, _ => [] := by
  rw [ticksFor_expected _ _ (tickOf_stream getPrice) hf k c (mapKeys m.GetSubscriptions) hwf.1]
  by_cases hc : c ∈ mapKeys m.GetSubscriptions
  · simp only [hc, if_true, tickOf]
    cases getPrice c with
    | none => simp
    | some v =>
      cases hnan : v.isInfOrNaN <;> cases mapGet (f c) k <;> simp [jsonMarshal, hnan]
  · simp only [hc, if_false]
    rw [hempty c (clientsAt_of_not_key m c hc)]
    cases getPrice c <;> simp [mapGet]

/-- C6, refuted as stated: the data source returns a value for BTC (a NaN), client "A"
is subscribed to BTC and every write would succeed, yet the pass delivers nothing:
`json.Marshal` refuses the tick and the publisher moves on. -/
theorem publishPass_nan_price_delivers_nothing :
    (fun c => if c = "BTC" then some (Float64.mk 9221120237041090560) else none) "BTC"
      = some (Float64.mk 9221120237041090560) ∧
    (SubscriptionManager.mk [("BTC", [("A", 1)])]).handleOf "BTC" "A" = some 1 ∧
    (publishPass (fun c => if c = "BTC" then some (Float64.mk 9221120237041090560) else none)
      (fun _ _ => true) (SubscriptionManager.mk [("BTC", [("A", 1)])])).2 = [] := by
  decide

/-- C6, amended. In a pass in which every write succeeds the registry is left as it was,
and for every client and channel the messages the client gets for that channel are:
exactly one Tick with the channel's name and value when `GetPrice` returned a value that
JSON can encode (neither NaN nor infinite) and the client is in the channel's subscriber
set; none otherwise, that is for a channel it is not subscribed to, a channel whose
`GetPrice` failed, or a channel whose value cannot be encoded. -/
theorem publishPass_delivers_to_subscribers (getPrice : String → Option Float64)
    (write : Conn → Tick → Bool) (m : SubscriptionManager) (hwf : m.WellFormed)
    (hw : ∀ c k conn, m.handleOf c k = some conn → ∀ t, write conn t = true) :
    (publishPass getPrice write m).1 = m ∧
    ∀ k c, ticksFor (publishPass getPrice write m).2 k c =
      match getPrice c, m.handleOf c k with
      | some v, some conn => if v.isInfOrNaN = true then [] else [⟨k, conn, ⟨c, v⟩⟩]
      | _, _ => [] := by
  have hw2 : ∀ c, ∀ e ∈ m.clientsAt c, ∀ t, write e.2 t = true :=
    fun c e he t => hw c e.1 e.2 (write_of_handle m hwf c e he) t
  have hpass := publishLoop_all_succeed getPrice write m hw2 (mapKeys m.GetSubscriptions) []
  refine ⟨by simp [publishPass, hpass], ?_⟩
  intro k c
  simp only [publishPass, hpass, List.nil_append]
  rw [ticksFor_pass getPrice m hwf m.clientsAt (uniqueKeys_clientsAt m hwf) (fun _ h => h) k c,
    handleOf_eq_clientsAt]

theorem demoRegistry_wellFormed : demoRegistry.WellFormed := by
  simp [SubscriptionManager.WellFormed, UniqueKeys, mapKeys, demoRegistry]

theorem publishPass_delivers_to_subscribers_witness :
    demoRegistry.WellFormed ∧
    (publishPass demoPrices (fun _ _ => true) demoRegistry).1 = demoRegistry ∧
    ticksFor (publishPass demoPrices (fun _ _ => true) demoRegistry).2 "C" "ETH"
      = [⟨"C", 3, ⟨"ETH", ⟨4658837475072933888⟩⟩⟩] ∧
    ticksFor (publishPass demoPrices (fun _ _ => true) demoRegistry).2 "A" "ETH" = [] :=
  have t := publishPass_delivers_to_subscribers demoPrices (fun _ _ => true) demoRegistry
    demoRegistry_wellFormed (fun _ _ _ _ _ => rfl)
  ⟨demoRegistry_wellFormed, t.1, (t.2 "C" "ETH").trans (by decide),
    (t.2 "A" "ETH").trans (by decide)⟩

/-- C7, refuted as stated: the data source returns a value for BTC (a NaN), so no write
is attempted; client "C", whose every write would fail, is still in the subscriber set of
BTC after the pass, and client "A" got no Tick. -/
theorem publishPass_nan_price_keeps_failing_client :
    (publishPass (fun _ => some (Float64.mk 9221120237041090560))
      (fun conn _ => decide (conn ≠ 3))
      (SubscriptionManager.mk [("BTC", [("A", 1), ("C", 3)])])).1.handleOf "BTC" "C"
        = some 3 ∧
    ticksFor (publishPass (fun _ => some (Float64.mk 9221120237041090560))
      (fun conn _ => decide (conn ≠ 3))
      (SubscriptionManager.mk [("BTC", [("A", 1), ("C", 3)])])).2 "A" "BTC" = [] := by
  decide

/-- C7, amended. In a pass in which the data source returns, for every configured
channel, a value that JSON can encode (neither NaN nor infinite), every write to a
subscribed client C fails and every write to another client succeeds: each other client
gets exactly one Tick for each channel it is subscribed to and none for any other, C gets
none, and after the pass the registry is what `RemoveClient(C, nil)` makes of it: C is in
no subscriber set and the other clients' memberships are unchanged.  The registry is any
association list, so this holds for every visiting order. -/
theorem publishPass_isolates_failing_client (getPrice : String → Option Float64)
    (write : Conn → Tick → Bool) (m : SubscriptionManager) (C : String)
    (hwf : m.WellFormed)
    (hprice : ∀ c, m.configured c = true → ∃ v, getPrice c = some v ∧ v.isInfOrNaN = false)
    (hsub : ∃ c, (m.handleOf c C).isSome = true)
    (hfail : ∀ c conn, m.handleOf c C = some conn → ∀ t, write conn t = false)
    (hok : ∀ c k conn, k ≠ C → m.handleOf c k = some conn → ∀ t, write conn t = true) :
    (publishPass getPrice write m).1 = (m.RemoveClient C none).2 ∧
    (∀ c, (publishPass getPrice write m).1.handleOf c C = none) ∧
    (∀ c k, k ≠ C → (publishPass getPrice write m).1.handleOf c k = m.handleOf c k) ∧
    (∀ c k, k ≠ C → ticksFor (publishPass getPrice write m).2 k c =
      match getPrice c, m.handleOf c k with
      | some v, some conn => [⟨k, conn, ⟨c, v⟩⟩]
      | _, _ => []) ∧
    (∀ c, ticksFor (publishPass getPrice write m).2 C c = []) := by
  have hw2 : ∀ c, ∀ e ∈ m.clientsAt c, ∀ t, write e.2 t = decide (e.1 ≠ C) := by
    intro c e he t
    have hh := write_of_handle m hwf c e he
    by_cases hec : e.1 = C
    · rw [hec] at hh
      simp [hec, hfail c e.2 hh t]
    · simp [hec, hok c e.1 e.2 hec hh t]
  have hpass := publishLoop_one_fails getPrice write C (mapKeys m.GetSubscriptions) m [] hw2
  have hany : (mapKeys m.GetSubscriptions).any (fun c => (tickOf getPrice c).isSome &&
      decide (C ∈ mapKeys (m.clientsAt c))) = true := by
    obtain ⟨c, hc⟩ := hsub
    rw [List.any_eq_true]
    have hcfg : m.configured c = true := by
      simp only [SubscriptionManager.handleOf] at hc
      simp only [SubscriptionManager.configured]
      cases hg : mapGet m.subscriptions c with
      | none => simp [hg] at hc
      | some cl => rfl
    refine ⟨c, (mapGet_isSome_iff_mem_keys _ c).mp hcfg, ?_⟩
    obtain ⟨v, hv, hfin⟩ := hprice c hcfg
    rw [handleOf_eq_clientsAt] at hc
    have hmem := (mapGet_isSome_iff_mem_keys _ C).mp hc
    simp [tickOf, hv, jsonMarshal, hfin, hmem]
  rw [hany] at hpass
  simp only [if_true, List.nil_append] at hpass
  have hstate : (publishPass getPrice write m).1 = (m.RemoveClient C none).2 := by
    simp [publishPass, hpass]
  have hout : (publishPass getPrice write m).2 = expected (tickOf getPrice)
      (fun c => mapDelete (m.clientsAt c) C) (mapKeys m.GetSubscriptions) := by
    simp [publishPass, hpass]
  have hticks := ticksFor_pass getPrice m hwf (fun c => mapDelete (m.clientsAt c) C)
    (fun c => uniqueKeys_mapDelete _ C (uniqueKeys_clientsAt m hwf c))
    (fun c h => by simp [h, mapDelete])
  refine ⟨hstate, ?_, ?_, ?_, ?_⟩
  · intro c; rw [hstate]; exact (removeClient_nil m C).2.1 c
  · intro c k hk; rw [hstate]; exact (removeClient_nil m C).2.2 c k hk
  · intro c k hk
    rw [hout, hticks k c]
    simp only
    rw [mapGet_mapDelete_ne _ _ _ hk, ← handleOf_eq_clientsAt]
    cases hg : getPrice c with
    | none => rfl
    | some v =>
      cases hh : m.handleOf c k with
      | none => rfl
      | some conn =>
        have hcfg : m.configured c = true := by
          simp only [SubscriptionManager.handleOf] at hh
          simp only [SubscriptionManager.configured]
          cases hg2 : mapGet m.subscriptions c with
          | none => simp [hg2] at hh
          | some cl => rfl
        obtain ⟨v2, hv2, hfin⟩ := hprice c hcfg
        rw [hg] at hv2
        cases hv2
        simp [hfin]
  · intro c
    rw [hout, hticks C c]
    simp only
    rw [mapGet_mapDelete_self]
    cases getPrice c <;> rfl

theorem demoRegistry_handles (c k : String) (conn : Conn)
    (h : demoRegistry.handleOf c k = some conn) :
    (k = "A" ∧ conn = 1) ∨ (k = "B" ∧ conn = 2) ∨ (k = "C" ∧ conn = 3) := by
  simp only [SubscriptionManager.handleOf, demoRegistry, mapGet] at h
  split_ifs at h <;> simp_all [mapGet] <;> split_ifs at h <;> simp_all

theorem publishPass_isolates_failing_client_witness :
    (∃ c, (demoRegistry.handleOf c "C").isSome = true) ∧
    (publishPass demoPrices demoWrite demoRegistry).1
      = ⟨[("BTC", [("A", 1)]), ("ETH", [("B", 2)])]⟩ ∧
    ticksFor (publishPass demoPrices demoWrite demoRegistry).2 "A" "BTC"
      = [⟨"A", 1, ⟨"BTC", ⟨4678616589744996352⟩⟩⟩] ∧
    ticksFor (publishPass demoPrices demoWrite demoRegistry).2 "C" "BTC" = [] :=
  have hsub : ∃ c, (demoRegistry.handleOf c "C").isSome = true := ⟨"BTC", by decide⟩
  have hprice : ∀ c, demoRegistry.configured c = true →
      ∃ v, demoPrices c = some v ∧ v.isInfOrNaN = false := by
    intro c hc
    by_cases h1 : c = "BTC"
    · subst h1; exact ⟨_, rfl, by decide⟩
    · by_cases h2 : c = "ETH"
      · subst h2; exact ⟨_, rfl, by decide⟩
      · have h3 : ¬ "BTC" = c := fun h => h1 h.symm
        have h4 : ¬ "ETH" = c := fun h => h2 h.symm
        simp [SubscriptionManager.configured, demoRegistry, mapGet, h3, h4] at hc
  have hfail : ∀ c conn, demoRegistry.handleOf c "C" = some conn →
      ∀ t, demoWrite conn t = false := by
    intro c conn h t
    rcases demoRegistry_handles c "C" conn h with h | h | h
    · exact absurd h.1 (by decide)
    · exact absurd h.1 (by decide)
    · rw [h.2]; rfl
  have hok : ∀ c k conn, k ≠ "C" → demoRegistry.handleOf c k = some conn →
      ∀ t, demoWrite conn t = true := by
    intro c k conn hk h t
    rcases demoRegistry_handles c k conn h with h | h | h
    · rw [h.2]; rfl
    · rw [h.2]; rfl
    · exact absurd h.1 hk
  have t := publishPass_isolates_failing_client demoPrices demoWrite demoRegistry "C"
    demoRegistry_wellFormed hprice hsub hfail hok
  ⟨hsub, t.1.trans (by decide), (t.2.2.2.1 "BTC" "A" (by decide)).trans (by decide),
    t.2.2.2.2 "BTC"⟩

/-- C10, the failing run: the publisher ranges over the registry's own maps.  Client C
is subscribed to BTC and ETH when the pass starts; its write for BTC fails, its write for
ETH would succeed; the `RemoveClient` made while BTC is being served is seen by the same
pass, which never writes the ETH tick to C. -/
theorem publishPass_sees_removal_made_during_pass :
    demoRegistry.handleOf "ETH" "C" = some 3 ∧
    (fun (conn : Conn) (t : Tick) => !(decide (conn = 3) && decide (t.S = "BTC"))) 3
      ⟨"ETH", ⟨4658837475072933888⟩⟩ = true ∧
    ticksFor (publishPass demoPrices
      (fun conn t => !(decide (conn = 3) && decide (t.S = "BTC"))) demoRegistry).2
      "C" "ETH" = [] ∧
    ticksFor (publishPass demoPrices
      (fun conn t => !(decide (conn = 3) && decide (t.S = "BTC"))) demoRegistry).2
      "B" "ETH" = [⟨"B", 2, ⟨"ETH", ⟨4658837475072933888⟩⟩⟩] := by
  decide

/-! ## The price generator -/

/-- C9. For a symbol that has a configuration, `GetPrice` returns no error, the price
stored for the symbol afterwards is the price just returned (drift and diffusion are kept),
and the configuration of every other symbol and the symbol set are unchanged. -/
theorem getPrice_stores_returned_price (r : PriceGenerator) (symbol : String) (z : Float)
    (hcfg : (mapGet r.config symbol).isSome = true) :
    (r.GetPrice symbol z).1.2 = none ∧
    (mapGet (r.GetPrice symbol z).2.config symbol).map (fun cfg => cfg.price)
      = some (r.GetPrice symbol z).1.1 ∧
    (mapGet (r.GetPrice symbol z).2.config symbol).map (fun cfg => (cfg.drift, cfg.diffusion))
      = (mapGet r.config symbol).map (fun cfg => (cfg.drift, cfg.diffusion)) ∧
    (∀ other, other ≠ symbol →
      mapGet (r.GetPrice symbol z).2.config other = mapGet r.config other) ∧
    (r.GetPrice symbol z).2.symbols = r.symbols := by
  obtain ⟨cfg, hc⟩ := Option.isSome_iff_exists.mp hcfg
  simp only [PriceGenerator.GetPrice, hc]
  refine ⟨trivial, ?_, ?_, ?_, trivial⟩
  · simp [mapGet_mapSet_self]
  · simp [mapGet_mapSet_self]
  · intro other ho
    exact mapGet_mapSet_ne _ _ _ _ (fun h => ho h.symm)

theorem getPrice_stores_returned_price_witness :
    (∀ symbol ∈ SYMBOLS, (mapGet NewPriceGenerator.config symbol).isSome = true) ∧
    (NewPriceGenerator.GetPrice "BTC" 0.3).1.2 = none ∧
    (mapGet (NewPriceGenerator.GetPrice "BTC" 0.3).2.config "BTC").map (fun cfg => cfg.price)
      = some (NewPriceGenerator.GetPrice "BTC" 0.3).1.1 :=
  have hall : ∀ symbol ∈ SYMBOLS, (mapGet NewPriceGenerator.config symbol).isSome = true := by
    intro symbol hs
    simp only [SYMBOLS, List.mem_cons, List.mem_singleton, List.not_mem_nil, or_false] at hs
    rcases hs with hs | hs | hs <;> subst hs <;> rfl
  have t := getPrice_stores_returned_price NewPriceGenerator "BTC" 0.3
    (hall "BTC" (by simp [SYMBOLS]))
  ⟨hall, t.1, t.2.1⟩

/-! ## Key uniqueness is kept by every operation -/

theorem mem_mapKeys_mapSet {V : Type} (m : List (String × V)) (k : String) (v : V)
    (x : String) : x ∈ mapKeys (mapSet m k v) ↔ x = k ∨ x ∈ mapKeys m := by
  induction m with
  | nil => simp [mapSet, mapKeys]
  | cons a m ih =>
    obtain ⟨k1, v1⟩ := a
    by_cases hk : k1 = k
    · subst hk
      simp [mapSet, mapKeys]
    · have ih2 : x ∈ List.map Prod.fst (mapSet m k v) ↔ x = k ∨ x ∈ List.map Prod.fst m := ih
      simp only [mapSet, hk, if_false, mapKeys, List.map_cons, List.mem_cons, ih2]
      tauto

theorem uniqueKeys_mapSet {V : Type} (m : List (String × V)) (k : String) (v : V)
    (hu : UniqueKeys m) : UniqueKeys (mapSet m k v) := by
  induction m with
  | nil => simp [mapSet, UniqueKeys, mapKeys]
  | cons a m ih =>
    obtain ⟨k1, v1⟩ := a
    have hu2 : k1 ∉ mapKeys m ∧ UniqueKeys m := by
      simpa [UniqueKeys, mapKeys] using hu
    by_cases hk : k1 = k
    · subst hk
      simpa [mapSet, UniqueKeys, mapKeys] using hu
    · have hnot : k1 ∉ mapKeys (mapSet m k v) := by
        rw [mem_mapKeys_mapSet]
        rintro (h | h)
        · exact hk h
        · exact hu2.1 h
      have hrec : (mapKeys (mapSet m k v)).Nodup := ih hu2.2
      simp only [mapSet, hk, if_false, UniqueKeys, mapKeys, List.map_cons]
      exact List.nodup_cons.mpr ⟨hnot, hrec⟩

theorem mem_mapSet {V : Type} (m : List (String × V)) (k : String) (v : V)
    (e : String × V) (he : e ∈ mapSet m k v) : e = (k, v) ∨ e ∈ m := by
  induction m with
  | nil => simpa [mapSet] using he
  | cons a m ih =>
    obtain ⟨k1, v1⟩ := a
    by_cases hk : k1 = k
    · subst hk
      simp only [mapSet, if_true, List.mem_cons] at he
      rcases he with he | he
      · exact Or.inl he
      · exact Or.inr (List.mem_cons_of_mem _ he)
    · simp only [mapSet, hk, if_false, List.mem_cons] at he
      rcases he with he | he
      · exact Or.inr (he ▸ List.mem_cons_self _ _)
      · rcases ih he with h | h
        · exact Or.inl h
        · exact Or.inr (List.mem_cons_of_mem _ h)

/-- Overwriting the subscriber set of a stream by one with unique keys keeps the registry
well formed. -/
theorem wellFormed_mapSet (subs : Subscriptions) (stream : String) (cl : Clients)
    (hwf : SubscriptionManager.WellFormed ⟨subs⟩) (hcl : UniqueKeys cl) :
    SubscriptionManager.WellFormed ⟨mapSet subs stream cl⟩ := by
  refine ⟨uniqueKeys_mapSet _ _ _ hwf.1, ?_⟩
  intro e he
  rcases mem_mapSet _ _ _ e he with h | h
  · rw [h]; exact hcl
  · exact hwf.2 e h

theorem addLoop_wellFormed (K : String) (h : Conn) (L : List String) :
    ∀ subs : Subscriptions, SubscriptionManager.WellFormed ⟨subs⟩ →
      SubscriptionManager.WellFormed ⟨(addLoop K h L subs).2⟩ := by
  induction L with
  | nil => intro subs hwf; simpa [addLoop] using hwf
  | cons stream rest ih =>
    intro subs hwf
    cases hget : mapGet subs stream with
    | none => simpa [addLoop, hget] using hwf
    | some cl =>
      simp only [addLoop, hget]
      apply ih
      exact wellFormed_mapSet subs stream _ hwf
        (uniqueKeys_mapSet _ _ _ (hwf.2 _ (mem_of_mapGet _ _ _ hget)))

theorem removeLoop_wellFormed (K : String) (L : List String) :
    ∀ subs : Subscriptions, SubscriptionManager.WellFormed ⟨subs⟩ →
      SubscriptionManager.WellFormed ⟨(removeLoop K L subs).2⟩ := by
  induction L with
  | nil => intro subs hwf; simpa [removeLoop] using hwf
  | cons stream rest ih =>
    intro subs hwf
    cases hget : mapGet subs stream with
    | none => simpa [removeLoop, hget] using hwf
    | some cl =>
      simp only [removeLoop, hget]
      apply ih
      exact wellFormed_mapSet subs stream _ hwf
        (uniqueKeys_mapDelete _ _ (hwf.2 _ (mem_of_mapGet _ _ _ hget)))

theorem removeEverywhere_wellFormed (K : String) (subs : Subscriptions)
    (hwf : SubscriptionManager.WellFormed ⟨subs⟩) :
    SubscriptionManager.WellFormed ⟨removeEverywhere K subs⟩ := by
  constructor
  · have hkeys : mapKeys (removeEverywhere K subs) = mapKeys subs := by
      simp [mapKeys, removeEverywhere, Function.comp_def]
    simp only [UniqueKeys, hkeys]
    exact hwf.1
  · intro e he
    simp only [removeEverywhere, List.mem_map] at he
    obtain ⟨e0, he0, rfl⟩ := he
    exact uniqueKeys_mapDelete _ _ (hwf.2 e0 he0)

/-- The registry `NewServer` builds is well formed, whatever the list of streams. -/
theorem newServer_wellFormed (streams : List String) : (NewServer streams).WellFormed := by
  have hgen : ∀ (l : List String) (acc : Subscriptions),
      SubscriptionManager.WellFormed ⟨acc⟩ →
      SubscriptionManager.WellFormed
        ⟨l.foldl (fun subs stream => mapSet subs stream []) acc⟩ := by
    intro l
    induction l with
    | nil => intro acc h; simpa using h
    | cons a l ih =>
      intro acc h
      simp only [List.foldl_cons]
      exact ih _ (wellFormed_mapSet acc a [] h (by simp [UniqueKeys, mapKeys]))
  exact hgen streams [] ⟨by simp [UniqueKeys, mapKeys], by simp⟩

/-- `AddClient` keeps the registry well formed, also when it stops with an error. -/
theorem addClient_keeps_wellFormed (s : SubscriptionManager) (K : String) (L : StrSlice)
    (h : Conn) (hwf : s.WellFormed) : (s.AddClient K L h).2.WellFormed :=
  addLoop_wellFormed K h L.elems s.subscriptions hwf

theorem addClient_keeps_wellFormed_witness :
    ((NewServer ["BTC", "ETH"]).AddClient "K" (some ["ETH", "XXX"]) 7).2.WellFormed :=
  addClient_keeps_wellFormed (NewServer ["BTC", "ETH"]) "K" (some ["ETH", "XXX"]) 7
    (newServer_wellFormed ["BTC", "ETH"])

/-- `RemoveClient` keeps the registry well formed, for the nil list and for any other. -/
theorem removeClient_keeps_wellFormed (s : SubscriptionManager) (K : String) (L : StrSlice)
    (hwf : s.WellFormed) : (s.RemoveClient K L).2.WellFormed := by
  simp only [SubscriptionManager.RemoveClient]
  apply removeLoop_wellFormed
  split
  · exact removeEverywhere_wellFormed K s.subscriptions hwf
  · exact hwf

theorem removeClient_keeps_wellFormed_witness :
    (demoRegistry.RemoveClient "C" none).2.WellFormed :=
  removeClient_keeps_wellFormed demoRegistry "C" none demoRegistry_wellFormed

end Stream
